import Mathlib

set_option maxRecDepth 80000

/-!
A shallow embedding of the reliability core of `src/kernel-mod/fastpass_proto.c`
(the Fastpass control protocol): the sliding outstanding window and its bitmap
scans, the retransmission-timer reset logic, the RESET handshake and the
run-length ACK processor.  Machine integers (`u64`, `u32`) are modelled as `Nat`
with explicit reduction modulo `2 ^ 64` / `2 ^ 32` where the C code can wrap.
-/

namespace Fastpass

/-- `FASTPASS_OUTWND_LEN`: capacity of the outstanding window. -/
def OUTWND_LEN : Nat := 256

/-- Modulus of `u64` arithmetic. -/
def M64 : Nat := 2 ^ 64

/-- Modulus of `u32` arithmetic. -/
def M32 : Nat := 2 ^ 32

theorem M64_eq : M64 = 18446744073709551616 := by norm_num [M64]

theorem M32_eq : M32 = 4294967296 := by norm_num [M32]

/-- Wraparound `u64` subtraction `a - b`. -/
def sub64 (a b : Nat) : Nat := (a % M64 + (M64 - b % M64)) % M64

/-- Wraparound `u64` addition `a + b`. -/
def add64 (a b : Nat) : Nat := (a % M64 + b % M64) % M64

/-- Wraparound `u32` subtraction `a - b`. -/
def sub32 (a b : Nat) : Nat := (a % M32 + (M32 - b % M32)) % M32

/-- Linux `time_before64(a, b)`: the signed difference `(s64)(a - b)` is negative. -/
def time_before64 (a b : Nat) : Bool := decide (2 ^ 63 ≤ sub64 a b)

/-- Linux `time_after64(a, b)`. -/
def time_after64 (a b : Nat) : Bool := time_before64 b a

/-- Linux `time_after_eq64(a, b)`. -/
def time_after_eq64 (a b : Nat) : Bool := ! time_before64 a b

/-- Ascending scan: least `i` with `offset ≤ i < offset + n` and `mask i = true`. -/
def scanUp (mask : Nat → Bool) (offset : Nat) : Nat → Option Nat
  | 0 => none
  | n + 1 => if mask offset then some offset else scanUp mask (offset + 1) n

/-- Linux `find_next_bit(addr, size, offset)`: least set bit in `[offset, size)`,
or `size` when there is none (also when `offset ≥ size`). -/
def find_next_bit (mask : Nat → Bool) (size offset : Nat) : Nat :=
  (scanUp mask offset (size - offset)).getD size

/-- Descending scan: greatest `i < n` with `mask i = true`. -/
def scanDown (mask : Nat → Bool) : Nat → Option Nat
  | 0 => none
  | n + 1 => if mask n then some n else scanDown mask n

/-- Linux `find_last_bit(addr, size)`: greatest set bit in `[0, size)`, or `size`
when the bitmap is empty on that range. -/
def find_last_bit (mask : Nat → Bool) (size : Nat) : Nat :=
  (scanDown mask size).getD size

/-- Linux `__set_bit`. -/
def set_bit (i : Nat) (m : Nat → Bool) : Nat → Bool :=
  fun j => if j = i then true else m j

/-- Linux `__clear_bit`. -/
def clear_bit (i : Nat) (m : Nat → Bool) : Nat → Bool :=
  fun j => if j = i then false else m j

/-- State of the session's one-shot `hrtimer`. -/
inductive TimerState
  | inactive
  | armed (expiry : Nat)
  | callbackRunning
deriving DecidableEq

/-- `hrtimer_try_to_cancel`: returns 0 when the timer is inactive, 1 when an
armed timer was cancelled, -1 when the callback is currently running (and the
timer cannot be stopped).  Also returns the timer state afterwards. -/
def hrtimer_try_to_cancel : TimerState → Int × TimerState
  | .inactive => (0, .inactive)
  | .armed _ => (1, .inactive)
  | .callbackRunning => (-1, .callbackRunning)

/-- `struct fpproto_pktdesc` (the fields the reliability core touches). -/
structure fpproto_pktdesc where
  seqno : Nat
  sent_timestamp : Nat
  send_reset : Bool
  reset_timestamp : Nat
deriving DecidableEq

/-- `struct fastpass_sock`: outstanding window (`bin_mask`, `bins`,
`tx_num_unacked`, `next_seqno`), reset state, timer state and statistics. -/
structure fastpass_sock where
  bin_mask : Nat → Bool
  bins : Nat → Option fpproto_pktdesc
  next_seqno : Nat
  tx_num_unacked : Nat
  earliest_unacked : Nat
  send_timeout_us : Nat
  last_reset_time : Nat
  in_sync : Bool
  rst_win_ns : Nat
  retrans_timer : TimerState
  stat_redundant_reset : Nat
  stat_reset_out_of_window : Nat
  stat_outdated_reset : Nat
  stat_too_early_ack : Nat
  stat_fall_off_outwnd : Nat

/-- `outwnd_pos(tslot) = ((u32)(-tslot)) & (FASTPASS_OUTWND_LEN - 1)`. -/
def outwnd_pos (tslot : Nat) : Nat :=
  (M64 - tslot % M64) % M64 % M32 % OUTWND_LEN

/-- `outwnd_is_unacked`: bit test on the (lower half of the) mask. -/
def outwnd_is_unacked (fp : fastpass_sock) (seqno : Nat) : Bool :=
  fp.bin_mask (outwnd_pos seqno)

/-- `outwnd_add`: insert `pd` at the position of `next_seqno`, set both mirrored
mask bits, bump `tx_num_unacked`, advance `next_seqno`. -/
def outwnd_add (fp : fastpass_sock) (pd : fpproto_pktdesc) : fastpass_sock :=
  let circular_index := outwnd_pos fp.next_seqno
  { fp with
    bin_mask := set_bit (circular_index + OUTWND_LEN) (set_bit circular_index fp.bin_mask)
    bins := fun j => if j = circular_index then some pd else fp.bins j
    tx_num_unacked := (fp.tx_num_unacked + 1) % M32
    next_seqno := add64 fp.next_seqno 1 }

/-- `outwnd_pop`: remove the descriptor at the position of `seqno`, clearing both
mirrored mask bits and decrementing `tx_num_unacked`; returns the descriptor. -/
def outwnd_pop (fp : fastpass_sock) (seqno : Nat) : fastpass_sock × Option fpproto_pktdesc :=
  let circular_index := outwnd_pos seqno
  ({ fp with
     bin_mask := clear_bit (circular_index + OUTWND_LEN) (clear_bit circular_index fp.bin_mask)
     bins := fun j => if j = circular_index then none else fp.bins j
     tx_num_unacked := (fp.tx_num_unacked + (M32 - 1)) % M32 },
   fp.bins circular_index)

/-- `outwnd_at_or_before(seqno)`: `seqno - s` for the highest unacked `s ≤ seqno`
within the window, or `-1`.  Scans the doubled bitmap forward from the index
encoding `seqno`, bounded by `head_index + OUTWND_LEN`. -/
def outwnd_at_or_before (fp : fastpass_sock) (seqno : Nat) : Int :=
  if time_before64 seqno (sub64 fp.next_seqno OUTWND_LEN) then -1
  else
    let head_index := outwnd_pos (sub64 fp.next_seqno 1)
    let seqno_index := head_index + outwnd_pos (sub64 seqno (sub64 fp.next_seqno 1))
    let found_offset := find_next_bit fp.bin_mask (head_index + OUTWND_LEN) seqno_index
    if found_offset = head_index + OUTWND_LEN then -1
    else ((found_offset : Int) - (seqno_index : Int))

/-- `outwnd_earliest_unacked_hint(hint)`: seqno of the earliest unacked packet,
assuming one exists at or after `hint`; `find_last_bit` over the doubled bitmap
up to `outwnd_pos hint + OUTWND_LEN + 1`. -/
def outwnd_earliest_unacked_hint (fp : fastpass_sock) (hint : Nat) : Nat :=
  let hint_pos := outwnd_pos hint
  let found_offset := find_last_bit fp.bin_mask (hint_pos + OUTWND_LEN + 1)
  add64 hint (sub32 (hint_pos + OUTWND_LEN) found_offset)

/-- `outwnd_earliest_unacked`: the hint-based scan started at the window edge. -/
def outwnd_earliest_unacked (fp : fastpass_sock) : Nat :=
  outwnd_earliest_unacked_hint fp (sub64 fp.next_seqno OUTWND_LEN)

/-- `outwnd_empty`. -/
def outwnd_empty (fp : fastpass_sock) : Bool := decide (fp.tx_num_unacked = 0)

/-- `outwnd_timestamp`: `sent_timestamp` of the descriptor at `seqno` (the C code
assumes the slot is occupied; an unoccupied slot yields the default 0). -/
def outwnd_timestamp (fp : fastpass_sock) (seqno : Nat) : Nat :=
  ((fp.bins (outwnd_pos seqno)).map fpproto_pktdesc.sent_timestamp).getD 0

/-- `do_ack_seqno`: pop the descriptor and hand it to the `handle_ack` callback
(or free it).  Callback deliveries are tracked by the callers as seqno lists. -/
def do_ack_seqno (fp : fastpass_sock) (seqno : Nat) : fastpass_sock :=
  (outwnd_pop fp seqno).1

/-- `do_neg_ack_seqno`: pop the descriptor and hand it to the `handle_neg_ack`
callback (or free it). -/
def do_neg_ack_seqno (fp : fastpass_sock) (seq : Nat) : fastpass_sock :=
  (outwnd_pop fp seq).1

/-- `cancel_and_reset_retrans_timer`: try to cancel the timer; on a nonzero
result return at once.  Otherwise, when the window is non-empty, recompute the
earliest unacked seqno, cache it, and re-arm at its timeout. -/
def cancel_and_reset_retrans_timer (fp : fastpass_sock) : fastpass_sock :=
  let r := hrtimer_try_to_cancel fp.retrans_timer
  let fp1 := { fp with retrans_timer := r.2 }
  if r.1 ≠ 0 then fp1
  else if outwnd_empty fp1 then fp1
  else
    let seqno := outwnd_earliest_unacked fp1
    let timeout := add64 (outwnd_timestamp fp1 seqno) fp1.send_timeout_us
    { fp1 with earliest_unacked := seqno, retrans_timer := .armed timeout }

/-- One step of the `clear_next_unacked` loop in `outwnd_reset`, with fuel.
513 steps always suffice: every iteration clears at least one of the at most
512 set bits of the doubled mask. -/
def outwnd_reset_loop : Nat → fastpass_sock → Nat → fastpass_sock
  | 0, fp, _ => fp
  | fuel + 1, fp, tslot =>
    let gap := outwnd_at_or_before fp tslot
    if 0 ≤ gap then
      let tslot2 := sub64 tslot gap.toNat
      outwnd_reset_loop fuel (outwnd_pop fp tslot2).1 tslot2
    else fp

/-- `outwnd_reset`: pop (and free) every unacked descriptor, scanning backward
from the last transmitted seqno. -/
def outwnd_reset (fp : fastpass_sock) : fastpass_sock :=
  outwnd_reset_loop 513 fp (sub64 fp.next_seqno 1)

/-- `do_proto_reset`.

Modelled from the spec for the hash: `jhash_1word` is kernel library code that is
not under `src/`, so the 32-bit hash of the reset time is taken as an arbitrary
parameter `time_hash_fn`; the rest follows the source: clear the window, store
the reset time, and derive `next_seqno = reset_time + hash + (hash << 32)`. -/
def do_proto_reset (time_hash_fn : Nat → Nat) (fp : fastpass_sock) (reset_time : Nat) :
    fastpass_sock :=
  let time_hash := time_hash_fn reset_time % M32
  let fp1 := outwnd_reset fp
  { fp1 with
    last_reset_time := reset_time
    next_seqno := add64 reset_time (add64 time_hash (time_hash * 2 ^ 32)) }

/-- `tstamp_in_window(tstamp, win_middle, win_size)` (all `u64`). -/
def tstamp_in_window (tstamp win_middle win_size : Nat) : Bool :=
  decide (sub64 win_middle (win_size / 2) ≤ tstamp) &&
    decide (tstamp < add64 win_middle ((win_size + 1) / 2))

/-- Reconstruction of the full 56-bit RESET timestamp performed by
`fpproto_handle_reset`: the value in `[now - 2^55, now + 2^55)` congruent to
`partial_tstamp` modulo `2^56`. -/
def reconstruct_reset_tstamp (now partial_tstamp : Nat) : Nat :=
  let full_tstamp := sub64 now (2 ^ 55)
  add64 full_tstamp (sub64 partial_tstamp full_tstamp % 2 ^ 56)

/-- `fpproto_handle_reset` (`now` abstracts `fp_get_time_ns()`).  The second
component records whether the upper layer's `handle_reset` callback fired. -/
def fpproto_handle_reset (time_hash_fn : Nat → Nat) (fp : fastpass_sock)
    (now partial_tstamp : Nat) : fastpass_sock × Bool :=
  let full_tstamp := reconstruct_reset_tstamp now partial_tstamp
  if full_tstamp = fp.last_reset_time then
    (if fp.in_sync then { fp with stat_redundant_reset := fp.stat_redundant_reset + 1 }
     else { fp with in_sync := true }, false)
  else if tstamp_in_window full_tstamp now fp.rst_win_ns = false then
    ({ fp with stat_reset_out_of_window := fp.stat_reset_out_of_window + 1 }, false)
  else if (tstamp_in_window fp.last_reset_time now fp.rst_win_ns &&
      decide (full_tstamp < fp.last_reset_time)) = true then
    ({ fp with stat_outdated_reset := fp.stat_outdated_reset + 1 }, false)
  else
    ({ do_proto_reset time_hash_fn fp full_tstamp with in_sync := true }, true)

/-- The two interleaved goto targets of the run-length loop in
`fpproto_handle_ack`. -/
inductive AckMode
  | positive
  | unacked
deriving DecidableEq

/-- The `do_next_positive` / `do_next_unacked` goto loop of `fpproto_handle_ack`,
with fuel (`none` = fuel exhausted): arguments are current seqno, end seqno, the
remaining run-length word and the seqnos delivered to `handle_ack` so far. -/
def ack_loop : Nat → AckMode → fastpass_sock → Nat → Nat → Nat → List Nat →
    Option (fastpass_sock × List Nat)
  | 0, _, _, _, _, _, _ => none
  | fuel + 1, .positive, fp, _, end_seqno, ack_runlen, acks =>
      ack_loop fuel .unacked fp end_seqno (sub64 end_seqno (ack_runlen / 2 ^ 28))
        (ack_runlen * 2 ^ 4 % M32) acks
  | fuel + 1, .unacked, fp, cur_seqno, end_seqno, ack_runlen, acks =>
      let next_unacked := outwnd_at_or_before fp cur_seqno
      if next_unacked = -1 then some (fp, acks)
      else
        let cur2 := sub64 cur_seqno next_unacked.toNat
        if time_after64 cur2 end_seqno then
          ack_loop fuel .unacked (do_ack_seqno fp cur2) cur2 end_seqno ack_runlen
            (acks ++ [cur2])
        else if ack_runlen ≠ 0 then
          ack_loop fuel .positive fp cur2 (sub64 end_seqno (ack_runlen / 2 ^ 28))
            (ack_runlen * 2 ^ 4 % M32) acks
        else some (fp, acks)

/-- Fuel for `ack_loop`; shown sufficient for every state satisfying the window
invariants (at most 8 nibble steps and at most 256 pops). -/
def ACK_LOOP_FUEL : Nat := 600

/-- The full 64-bit seqno reconstructed by `fpproto_handle_ack` from the carried
16 low bits: `next_seqno - 2^16 + ((ack_seq - (next_seqno - 2^16)) & 0xFFFF)`. -/
def reconstruct_ack_seqno (next_seqno ack_seq : Nat) : Nat :=
  let cur_seqno := sub64 next_seqno (2 ^ 16)
  add64 cur_seqno (sub64 ack_seq cur_seqno % 2 ^ 16)

/-- `fpproto_handle_ack`: reconstruct the seqno, reject too-early ACKs, ack the
carried seqno when unacked, then run the nibble loop; when anything was acked,
finish with `cancel_and_reset_retrans_timer`.  The second component is the list
of seqnos delivered to the `handle_ack` callback; `none` = loop fuel exhausted. -/
def fpproto_handle_ack (fp : fastpass_sock) (ack_seq ack_runlen : Nat) :
    Option (fastpass_sock × List Nat) :=
  let cur_seqno := reconstruct_ack_seqno fp.next_seqno ack_seq
  if time_before64 cur_seqno (sub64 fp.next_seqno OUTWND_LEN) then
    some ({ fp with stat_too_early_ack := fp.stat_too_early_ack + 1 }, [])
  else
    let fp1 := if outwnd_is_unacked fp cur_seqno then do_ack_seqno fp cur_seqno else fp
    let acks : List Nat := if outwnd_is_unacked fp cur_seqno then [cur_seqno] else []
    let end_seqno := sub64 cur_seqno 1
    let runlen := ack_runlen % M32 * 2 ^ 4 % M32
    (ack_loop ACK_LOOP_FUEL .positive fp1 0 end_seqno runlen acks).map
      (fun r => (if r.2.length ≠ 0 then cancel_and_reset_retrans_timer r.1 else r.1, r.2))

/-- `fpproto_prepare_to_send`: when the slot at the window edge
(`next_seqno - OUTWND_LEN`) is occupied, count it as fallen off the window,
NACK it and reset the timer.  The second component lists NACKed seqnos. -/
def fpproto_prepare_to_send (fp : fastpass_sock) : fastpass_sock × List Nat :=
  let window_edge := sub64 fp.next_seqno OUTWND_LEN
  if outwnd_is_unacked fp window_edge then
    let fp1 := { fp with stat_fall_off_outwnd := fp.stat_fall_off_outwnd + 1 }
    let fp2 := do_neg_ack_seqno fp1 window_edge
    (cancel_and_reset_retrans_timer fp2, [window_edge])
  else (fp, [])

/-! ### Window invariants and the occupied-offset view -/

/-- Number of set bits in the lower half of the doubled mask. -/
def maskPopcount (m : Nat → Bool) : Nat :=
  ((Finset.range OUTWND_LEN).filter (fun i => m i = true)).card

/-- The window invariants of the outstanding window: a slot holds a descriptor
iff its bit is set in the lower half of the mask, the upper half mirrors the
lower half, and `tx_num_unacked` is the popcount of the lower half. -/
def WinInvar (fp : fastpass_sock) : Prop :=
  (∀ p < OUTWND_LEN, (fp.bins p).isSome = fp.bin_mask p)
  ∧ (∀ p < OUTWND_LEN, fp.bin_mask (p + OUTWND_LEN) = fp.bin_mask p)
  ∧ fp.tx_num_unacked = maskPopcount fp.bin_mask

/-- The mirror half of the invariants alone. -/
def MirrorInvar (fp : fastpass_sock) : Prop :=
  ∀ p < OUTWND_LEN, fp.bin_mask (p + OUTWND_LEN) = fp.bin_mask p

/-- Offsets `d ∈ [1, OUTWND_LEN]` such that the window seqno `next_seqno - d`
is marked unacked; offset `1` is the most recent seqno, `OUTWND_LEN` the window
edge.  This is the window-order view of the occupied slots. -/
def occupiedOffsets (fp : fastpass_sock) : Finset Nat :=
  (Finset.Icc 1 OUTWND_LEN).filter
    (fun d => fp.bin_mask (outwnd_pos (sub64 fp.next_seqno d)) = true)

/-- The occupied seqnos themselves, as plain naturals (window not wrapping). -/
def occupiedSeqnos (fp : fastpass_sock) : Finset Nat :=
  (occupiedOffsets fp).image (fun d => fp.next_seqno - d)

/-- Window states reachable from a freshly initialised socket by adds and pops
that respect the window bounds (the `BUG_ON` preconditions of the source). -/
inductive Reachable : fastpass_sock → Prop
  | init (fp : fastpass_sock) (hm : ∀ j, fp.bin_mask j = false)
      (hb : ∀ j, fp.bins j = none) (ht : fp.tx_num_unacked = 0) : Reachable fp
  | add (fp : fastpass_sock) (pd : fpproto_pktdesc) (h : Reachable fp)
      (hfree : outwnd_is_unacked fp (sub64 fp.next_seqno OUTWND_LEN) = false) :
      Reachable (outwnd_add fp pd)
  | pop (fp : fastpass_sock) (s : Nat) (h : Reachable fp)
      (h1 : 1 ≤ sub64 fp.next_seqno s) (h2 : sub64 fp.next_seqno s ≤ OUTWND_LEN)
      (hocc : outwnd_is_unacked fp s = true) :
      Reachable (outwnd_pop fp s).1

/-! ### `u64` arithmetic lemmas -/

theorem sub64_lt (a b : Nat) : sub64 a b < M64 := by
  have : 0 < M64 := by norm_num [M64]
  exact Nat.mod_lt _ this

theorem add64_lt (a b : Nat) : add64 a b < M64 := by
  have : 0 < M64 := by norm_num [M64]
  exact Nat.mod_lt _ this

theorem sub64_of_le {a b : Nat} (ha : a < M64) (hb : b ≤ a) : sub64 a b = a - b := by
  simp only [sub64, M64_eq] at *
  omega

theorem sub64_of_lt {a b : Nat} (ha : a < M64) (hb : b < M64) (h : a < b) :
    sub64 a b = a + M64 - b := by
  simp only [sub64, M64_eq] at *
  omega

/-- `a - (a - b) = b` in `u64` arithmetic. -/
theorem sub64_sub64_self (a b : Nat) : sub64 a (sub64 a b) = b % M64 := by
  simp only [sub64, M64_eq] at *
  omega

/-- `(a - d) - (a - e) = e - d` in `u64` arithmetic. -/
theorem sub64_sub64_sub64 (a d e : Nat) :
    sub64 (sub64 a d) (sub64 a e) = sub64 e d := by
  simp only [sub64, M64_eq] at *
  omega

/-- `x - (y + z) = (x - y) - z` in `u64` arithmetic. -/
theorem sub64_add64 (x y z : Nat) : sub64 x (add64 y z) = sub64 (sub64 x y) z := by
  simp only [sub64, add64, M64_eq] at *
  omega

/-- `(a - d) + k = a - (d - k)` in `u64` arithmetic, for `k ≤ d < M64`. -/
theorem add64_sub64_of_le {a d k : Nat} (hk : k ≤ d) (_hd : d < M64) :
    add64 (sub64 a d) k = sub64 a (d - k) := by
  simp only [sub64, add64, M64_eq] at *
  omega

theorem sub64_mod (a b : Nat) : sub64 a b % M64 = sub64 a b := by
  simp only [sub64, M64_eq]; omega

theorem time_before64_iff (a b : Nat) : time_before64 a b = true ↔ 2 ^ 63 ≤ sub64 a b := by
  simp [time_before64]

/-! ### Scan lemmas -/

theorem scanUp_eq_none {m : Nat → Bool} :
    ∀ {n offset : Nat}, scanUp m offset n = none ↔
      ∀ i, offset ≤ i → i < offset + n → m i = false := by
  intro n
  induction n with
  | zero =>
    intro offset
    constructor
    · intro _ i h1 h2; omega
    · intro _; rfl
  | succ n ih =>
    intro offset
    simp only [scanUp]
    by_cases h : m offset = true
    · rw [if_pos h]
      constructor
      · intro hc; exact absurd hc (by simp)
      · intro hall
        have := hall offset le_rfl (by omega)
        rw [h] at this
        exact absurd this (by simp)
    · rw [if_neg h, ih]
      constructor
      · intro hall i h1 h2
        rcases Nat.eq_or_lt_of_le h1 with rfl | h1lt
        · simpa using h
        · exact hall i h1lt (by omega)
      · intro hall i h1 h2
        exact hall i (by omega) (by omega)

theorem scanUp_eq_some {m : Nat → Bool} :
    ∀ {n offset j : Nat}, scanUp m offset n = some j →
      m j = true ∧ offset ≤ j ∧ j < offset + n ∧ ∀ i, offset ≤ i → i < j → m i = false := by
  intro n
  induction n with
  | zero => intro offset j h; exact absurd h (by simp [scanUp])
  | succ n ih =>
    intro offset j h
    simp only [scanUp] at h
    by_cases hm : m offset = true
    · rw [if_pos hm] at h
      rw [Option.some.injEq] at h
      subst h
      exact ⟨hm, le_rfl, by omega, fun i h1 h2 => by omega⟩
    · rw [if_neg hm] at h
      obtain ⟨hj, h1, h2, hall⟩ := ih h
      refine ⟨hj, by omega, by omega, fun i hi1 hi2 => ?_⟩
      rcases Nat.eq_or_lt_of_le hi1 with rfl | hlt
      · simpa using hm
      · exact hall i hlt hi2

theorem scanDown_eq_none {m : Nat → Bool} :
    ∀ {n : Nat}, scanDown m n = none ↔ ∀ i, i < n → m i = false := by
  intro n
  induction n with
  | zero =>
    constructor
    · intro _ i h; omega
    · intro _; rfl
  | succ n ih =>
    simp only [scanDown]
    by_cases h : m n = true
    · rw [if_pos h]
      constructor
      · intro hc; exact absurd hc (by simp)
      · intro hall
        have := hall n (by omega)
        rw [h] at this
        exact absurd this (by simp)
    · rw [if_neg h, ih]
      constructor
      · intro hall i hi
        rcases Nat.lt_succ_iff_lt_or_eq.mp hi with hlt | rfl
        · exact hall i hlt
        · simpa using h
      · intro hall i hi
        exact hall i (by omega)

theorem scanDown_eq_some {m : Nat → Bool} :
    ∀ {n j : Nat}, scanDown m n = some j →
      m j = true ∧ j < n ∧ ∀ i, j < i → i < n → m i = false := by
  intro n
  induction n with
  | zero => intro j h; exact absurd h (by simp [scanDown])
  | succ n ih =>
    intro j h
    simp only [scanDown] at h
    by_cases hm : m n = true
    · rw [if_pos hm] at h
      rw [Option.some.injEq] at h
      subst h
      exact ⟨hm, by omega, fun i h1 h2 => by omega⟩
    · rw [if_neg hm] at h
      obtain ⟨hj, h1, hall⟩ := ih h
      refine ⟨hj, by omega, fun i hi1 hi2 => ?_⟩
      rcases Nat.lt_succ_iff_lt_or_eq.mp hi2 with hlt | rfl
      · exact hall i hi1 hlt
      · simpa using hm

/-- `find_next_bit` when it misses: every bit in `[offset, size)` is clear. -/
theorem find_next_bit_eq_size {m : Nat → Bool} {size offset : Nat} :
    find_next_bit m size offset = size ↔ ∀ i, offset ≤ i → i < size → m i = false := by
  unfold find_next_bit
  rcases hscan : scanUp m offset (size - offset) with _ | j
  · rw [scanUp_eq_none] at hscan
    simp only [Option.getD_none, true_iff]
    intro i h1 h2
    exact hscan i h1 (by omega)
  · obtain ⟨hj, h1, h2, _⟩ := scanUp_eq_some hscan
    simp only [Option.getD_some]
    constructor
    · intro h; omega
    · intro hall
      have := hall j h1 (by omega)
      rw [hj] at this
      exact absurd this (by simp)

/-- `find_next_bit` when it hits: the result is the least set bit at or after
`offset`. -/
theorem find_next_bit_spec {m : Nat → Bool} {size offset : Nat}
    (h : find_next_bit m size offset ≠ size) :
    m (find_next_bit m size offset) = true ∧ offset ≤ find_next_bit m size offset ∧
      find_next_bit m size offset < size ∧
      ∀ i, offset ≤ i → i < find_next_bit m size offset → m i = false := by
  unfold find_next_bit at *
  rcases hscan : scanUp m offset (size - offset) with _ | j
  · rw [hscan] at h; exact absurd rfl h
  · simp only [Option.getD_some] at h ⊢
    obtain ⟨hj, h1, h2, hall⟩ := scanUp_eq_some hscan
    exact ⟨hj, h1, by omega, hall⟩

/-- `find_last_bit` when it misses: the whole range `[0, size)` is clear. -/
theorem find_last_bit_eq_size {m : Nat → Bool} {size : Nat} :
    find_last_bit m size = size ↔ ∀ i, i < size → m i = false := by
  unfold find_last_bit
  rcases hscan : scanDown m size with _ | j
  · rw [scanDown_eq_none] at hscan
    simp only [Option.getD_none, true_iff]
    exact hscan
  · obtain ⟨hj, h1, _⟩ := scanDown_eq_some hscan
    simp only [Option.getD_some]
    constructor
    · intro h; omega
    · intro hall
      have := hall j h1
      rw [hj] at this
      exact absurd this (by simp)

/-- `find_last_bit` when it hits: the result is the greatest set bit below
`size`. -/
theorem find_last_bit_spec {m : Nat → Bool} {size : Nat}
    (h : find_last_bit m size ≠ size) :
    m (find_last_bit m size) = true ∧ find_last_bit m size < size ∧
      ∀ i, find_last_bit m size < i → i < size → m i = false := by
  unfold find_last_bit at *
  rcases hscan : scanDown m size with _ | j
  · rw [hscan] at h; exact absurd rfl h
  · simp only [Option.getD_some] at h ⊢
    exact scanDown_eq_some hscan

/-! ### Position arithmetic -/

theorem outwnd_pos_eq (t : Nat) :
    outwnd_pos t = (OUTWND_LEN - t % OUTWND_LEN) % OUTWND_LEN := by
  simp only [outwnd_pos, OUTWND_LEN, M64_eq, M32_eq]
  omega

theorem outwnd_pos_lt (t : Nat) : outwnd_pos t < OUTWND_LEN := by
  rw [outwnd_pos_eq]
  simp only [OUTWND_LEN]
  omega

theorem outwnd_pos_sub64 (a b : Nat) :
    outwnd_pos (sub64 a b) = (outwnd_pos a + b) % OUTWND_LEN := by
  rw [outwnd_pos_eq, outwnd_pos_eq]
  simp only [sub64, OUTWND_LEN, M64_eq]
  omega

/-- Under the mirror invariant, any index of the doubled mask reads the same as
its lower-half representative. -/
theorem mirror_mod {fp : fastpass_sock} (hm : MirrorInvar fp) {j : Nat}
    (hj : j < 2 * OUTWND_LEN) : fp.bin_mask j = fp.bin_mask (j % OUTWND_LEN) := by
  by_cases h : j < OUTWND_LEN
  · rw [Nat.mod_eq_of_lt h]
  · have hj2 : j = (j - OUTWND_LEN) + OUTWND_LEN := by omega
    have hlt : j - OUTWND_LEN < OUTWND_LEN := by
      simp only [OUTWND_LEN] at *; omega
    have hmod : j % OUTWND_LEN = j - OUTWND_LEN := by
      simp only [OUTWND_LEN] at *; omega
    rw [hmod]
    conv_lhs => rw [hj2]
    exact hm _ hlt

/-! ### Popcount lemmas -/

theorem maskPopcount_le (m : Nat → Bool) : maskPopcount m ≤ OUTWND_LEN := by
  calc maskPopcount m ≤ (Finset.range OUTWND_LEN).card := Finset.card_filter_le _ _
  _ = OUTWND_LEN := Finset.card_range _

theorem maskPopcount_congr {m m' : Nat → Bool} (h : ∀ i < OUTWND_LEN, m i = m' i) :
    maskPopcount m = maskPopcount m' := by
  unfold maskPopcount
  congr 1
  apply Finset.filter_congr
  intro i hi
  rw [Finset.mem_range] at hi
  rw [h i hi]

theorem maskPopcount_set_bit_high {m : Nat → Bool} {j : Nat} (hj : OUTWND_LEN ≤ j) :
    maskPopcount (set_bit j m) = maskPopcount m := by
  apply maskPopcount_congr
  intro i hi
  unfold set_bit
  rw [if_neg (by omega)]

theorem maskPopcount_clear_bit_high {m : Nat → Bool} {j : Nat} (hj : OUTWND_LEN ≤ j) :
    maskPopcount (clear_bit j m) = maskPopcount m := by
  apply maskPopcount_congr
  intro i hi
  unfold clear_bit
  rw [if_neg (by omega)]

theorem maskPopcount_set_bit {m : Nat → Bool} {i : Nat} (hi : i < OUTWND_LEN)
    (h : m i = false) : maskPopcount (set_bit i m) = maskPopcount m + 1 := by
  unfold maskPopcount
  have hset : (Finset.range OUTWND_LEN).filter (fun x => set_bit i m x = true) =
      insert i ((Finset.range OUTWND_LEN).filter (fun x => m x = true)) := by
    ext x
    simp only [Finset.mem_filter, Finset.mem_insert, Finset.mem_range]
    unfold set_bit
    by_cases hx : x = i
    · subst hx
      simp [hi]
    · rw [if_neg hx]
      constructor
      · intro ⟨h1, h2⟩; exact Or.inr ⟨h1, h2⟩
      · intro hor
        rcases hor with rfl | ⟨h1, h2⟩
        · exact absurd rfl hx
        · exact ⟨h1, h2⟩
  rw [hset, Finset.card_insert_of_not_mem]
  intro hmem
  rw [Finset.mem_filter] at hmem
  rw [hmem.2] at h
  exact absurd h (by simp)

theorem maskPopcount_clear_bit {m : Nat → Bool} {i : Nat} (hi : i < OUTWND_LEN)
    (h : m i = true) :
    maskPopcount (clear_bit i m) = maskPopcount m - 1 ∧ 1 ≤ maskPopcount m := by
  have hmem : i ∈ (Finset.range OUTWND_LEN).filter (fun x => m x = true) := by
    rw [Finset.mem_filter, Finset.mem_range]
    exact ⟨hi, h⟩
  have hclear : (Finset.range OUTWND_LEN).filter (fun x => clear_bit i m x = true) =
      ((Finset.range OUTWND_LEN).filter (fun x => m x = true)).erase i := by
    ext x
    simp only [Finset.mem_filter, Finset.mem_erase, Finset.mem_range]
    unfold clear_bit
    by_cases hx : x = i
    · subst hx
      simp
    · rw [if_neg hx]
      constructor
      · intro ⟨h1, h2⟩; exact ⟨hx, h1, h2⟩
      · intro ⟨_, h1, h2⟩; exact ⟨h1, h2⟩
  constructor
  · unfold maskPopcount
    rw [hclear, Finset.card_erase_of_mem hmem]
  · have := Finset.card_pos.mpr ⟨i, hmem⟩
    unfold maskPopcount
    omega

/-! ### Invariant preservation (claim C4 infrastructure) -/

theorem outwnd_pos_window_edge (fp : fastpass_sock) :
    outwnd_pos (sub64 fp.next_seqno OUTWND_LEN) = outwnd_pos fp.next_seqno := by
  rw [outwnd_pos_sub64]
  have := outwnd_pos_lt fp.next_seqno
  simp only [OUTWND_LEN] at *
  omega

theorem WinInvar_add {fp : fastpass_sock} (h : WinInvar fp) (pd : fpproto_pktdesc)
    (hfree : outwnd_is_unacked fp (sub64 fp.next_seqno OUTWND_LEN) = false) :
    WinInvar (outwnd_add fp pd) := by
  obtain ⟨hocc, hmir, hpc⟩ := h
  have hci : outwnd_pos fp.next_seqno < OUTWND_LEN := outwnd_pos_lt _
  rw [outwnd_is_unacked, outwnd_pos_window_edge] at hfree
  set ci := outwnd_pos fp.next_seqno with hcidef
  refine ⟨?_, ?_, ?_⟩
  · intro p hp
    simp only [outwnd_add, set_bit]
    by_cases hpc2 : p = ci
    · subst hpc2
      rw [if_pos rfl, if_neg (by omega), if_pos rfl]
      rfl
    · rw [if_neg hpc2, if_neg (by omega), if_neg hpc2]
      exact hocc p hp
  · intro p hp
    simp only [outwnd_add, set_bit]
    by_cases hpc2 : p = ci
    · subst hpc2
      rw [if_pos rfl, if_neg (by omega), if_pos rfl]
    · rw [if_neg (show ¬(p + OUTWND_LEN = ci + OUTWND_LEN) by omega),
        if_neg (show ¬(p + OUTWND_LEN = ci) by omega),
        if_neg (show ¬(p = ci + OUTWND_LEN) by omega), if_neg hpc2]
      exact hmir p hp
  · simp only [outwnd_add]
    rw [maskPopcount_set_bit_high (by omega), maskPopcount_set_bit hci hfree, ← hpc]
    have := maskPopcount_le fp.bin_mask
    rw [hpc] at *
    simp only [OUTWND_LEN, M32_eq] at *
    omega

theorem WinInvar_pop {fp : fastpass_sock} (h : WinInvar fp) {s : Nat}
    (hs : outwnd_is_unacked fp s = true) : WinInvar (outwnd_pop fp s).1 := by
  obtain ⟨hocc, hmir, hpc⟩ := h
  have hci : outwnd_pos s < OUTWND_LEN := outwnd_pos_lt _
  rw [outwnd_is_unacked] at hs
  set ci := outwnd_pos s with hcidef
  obtain ⟨hdec, hpos⟩ := maskPopcount_clear_bit hci hs
  refine ⟨?_, ?_, ?_⟩
  · intro p hp
    simp only [outwnd_pop, clear_bit]
    by_cases hpc2 : p = ci
    · subst hpc2
      rw [if_pos rfl, if_neg (by omega), if_pos rfl]
      rfl
    · rw [if_neg hpc2, if_neg (by omega), if_neg hpc2]
      exact hocc p hp
  · intro p hp
    simp only [outwnd_pop, clear_bit]
    by_cases hpc2 : p = ci
    · subst hpc2
      rw [if_pos rfl, if_neg (by omega), if_pos rfl]
    · rw [if_neg (show ¬(p + OUTWND_LEN = ci + OUTWND_LEN) by omega),
        if_neg (show ¬(p + OUTWND_LEN = ci) by omega),
        if_neg (show ¬(p = ci + OUTWND_LEN) by omega), if_neg hpc2]
      exact hmir p hp
  · simp only [outwnd_pop]
    rw [maskPopcount_clear_bit_high (by omega), hdec, ← hpc]
    have := maskPopcount_le fp.bin_mask
    rw [hpc] at *
    simp only [OUTWND_LEN, M32_eq] at *
    omega

theorem MirrorInvar_pop {fp : fastpass_sock} (hm : MirrorInvar fp) (s : Nat) :
    MirrorInvar (outwnd_pop fp s).1 := by
  intro p hp
  have hci : outwnd_pos s < OUTWND_LEN := outwnd_pos_lt _
  simp only [outwnd_pop, clear_bit]
  by_cases hpc2 : p = outwnd_pos s
  · subst hpc2
    rw [if_pos rfl, if_neg (by omega), if_pos rfl]
  · rw [if_neg (show ¬(p + OUTWND_LEN = outwnd_pos s + OUTWND_LEN) by omega),
      if_neg (show ¬(p + OUTWND_LEN = outwnd_pos s) by omega),
      if_neg (show ¬(p = outwnd_pos s + OUTWND_LEN) by omega), if_neg hpc2]
    exact hm p hp

/-- Popping a seqno whose low mask bit is set strictly decreases the popcount. -/
theorem maskPopcount_pop {fp : fastpass_sock} {s : Nat}
    (hs : outwnd_is_unacked fp s = true) :
    maskPopcount (outwnd_pop fp s).1.bin_mask = maskPopcount fp.bin_mask - 1 ∧
      1 ≤ maskPopcount fp.bin_mask := by
  have hci : outwnd_pos s < OUTWND_LEN := outwnd_pos_lt _
  rw [outwnd_is_unacked] at hs
  obtain ⟨hdec, hpos⟩ := maskPopcount_clear_bit hci hs
  constructor
  · simp only [outwnd_pop]
    rw [maskPopcount_clear_bit_high (by omega), hdec]
  · exact hpos

/-- A set bit found by the forward scan corresponds to an unacked seqno: the
scan start index is congruent to `outwnd_pos t` modulo the window length
(needs only the mirror invariant). -/
theorem aob_found_unacked {fp : fastpass_sock} (hm : MirrorInvar fp) {t k : Nat}
    (hfound : fp.bin_mask (outwnd_pos (sub64 fp.next_seqno 1) +
      outwnd_pos (sub64 t (sub64 fp.next_seqno 1)) + k) = true)
    (hk : outwnd_pos (sub64 fp.next_seqno 1) +
      outwnd_pos (sub64 t (sub64 fp.next_seqno 1)) + k <
      outwnd_pos (sub64 fp.next_seqno 1) + OUTWND_LEN) :
    outwnd_is_unacked fp (sub64 t k) = true := by
  rw [outwnd_is_unacked, outwnd_pos_sub64]
  have h1 : outwnd_pos (sub64 t (sub64 fp.next_seqno 1)) =
      (outwnd_pos t + sub64 fp.next_seqno 1) % OUTWND_LEN := outwnd_pos_sub64 _ _
  have h2 : outwnd_pos (sub64 fp.next_seqno 1) =
      (OUTWND_LEN - sub64 fp.next_seqno 1 % OUTWND_LEN) % OUTWND_LEN := outwnd_pos_eq _
  have h3 : outwnd_pos t < OUTWND_LEN := outwnd_pos_lt _
  have h4 : outwnd_pos (sub64 fp.next_seqno 1) < OUTWND_LEN := outwnd_pos_lt _
  have hfo512 : outwnd_pos (sub64 fp.next_seqno 1) +
      outwnd_pos (sub64 t (sub64 fp.next_seqno 1)) + k < 2 * OUTWND_LEN := by
    simp only [OUTWND_LEN] at *
    omega
  rw [mirror_mod hm hfo512] at hfound
  have key : (outwnd_pos t + k) % OUTWND_LEN =
      (outwnd_pos (sub64 fp.next_seqno 1) +
        outwnd_pos (sub64 t (sub64 fp.next_seqno 1)) + k) % OUTWND_LEN := by
    rw [h1, h2]
    simp only [OUTWND_LEN] at *
    omega
  rw [key]
  exact hfound

/-- Whenever `outwnd_at_or_before` returns a non-negative offset, the seqno it
denotes is marked unacked (needs only the mirror invariant). -/
theorem aob_nonneg_unacked {fp : fastpass_sock} (hm : MirrorInvar fp) {t : Nat} {g : Int}
    (hg : outwnd_at_or_before fp t = g) (h0 : 0 ≤ g) :
    outwnd_is_unacked fp (sub64 t g.toNat) = true := by
  unfold outwnd_at_or_before at hg
  by_cases h1 : time_before64 t (sub64 fp.next_seqno OUTWND_LEN) = true
  · rw [if_pos h1] at hg
    rw [← hg] at h0
    exact absurd h0 (by norm_num)
  · rw [if_neg h1] at hg
    simp only [] at hg
    by_cases h2 : find_next_bit fp.bin_mask (outwnd_pos (sub64 fp.next_seqno 1) + OUTWND_LEN)
        (outwnd_pos (sub64 fp.next_seqno 1) + outwnd_pos (sub64 t (sub64 fp.next_seqno 1))) =
        outwnd_pos (sub64 fp.next_seqno 1) + OUTWND_LEN
    · rw [if_pos h2] at hg
      rw [← hg] at h0
      exact absurd h0 (by norm_num)
    · rw [if_neg h2] at hg
      obtain ⟨hmask, hge, hlt, _⟩ := find_next_bit_spec h2
      have hkeq : outwnd_pos (sub64 fp.next_seqno 1) +
          outwnd_pos (sub64 t (sub64 fp.next_seqno 1)) + g.toNat =
          find_next_bit fp.bin_mask (outwnd_pos (sub64 fp.next_seqno 1) + OUTWND_LEN)
            (outwnd_pos (sub64 fp.next_seqno 1) +
              outwnd_pos (sub64 t (sub64 fp.next_seqno 1))) := by
        omega
      apply aob_found_unacked hm
      · rw [hkeq]
        exact hmask
      · omega

/-- One unfolding of the `clear_next_unacked` loop. -/
theorem outwnd_reset_loop_succ (fuel : Nat) (fp : fastpass_sock) (t : Nat) :
    outwnd_reset_loop (fuel + 1) fp t =
      if 0 ≤ outwnd_at_or_before fp t then
        outwnd_reset_loop fuel (outwnd_pop fp (sub64 t (outwnd_at_or_before fp t).toNat)).1
          (sub64 t (outwnd_at_or_before fp t).toNat)
      else fp := rfl

theorem WinInvar_reset_loop :
    ∀ (fuel : Nat) (fp : fastpass_sock) (t : Nat), WinInvar fp →
      WinInvar (outwnd_reset_loop fuel fp t) := by
  intro fuel
  induction fuel with
  | zero => intro fp t h; exact h
  | succ fuel ih =>
    intro fp t h
    rw [outwnd_reset_loop_succ]
    by_cases hgap : (0 : Int) ≤ outwnd_at_or_before fp t
    · rw [if_pos hgap]
      exact ih _ _ (WinInvar_pop h (aob_nonneg_unacked h.2.1 rfl hgap))
    · rw [if_neg hgap]
      exact h

theorem WinInvar_reset {fp : fastpass_sock} (h : WinInvar fp) :
    WinInvar (outwnd_reset fp) :=
  WinInvar_reset_loop 513 fp _ h

theorem Reachable_WinInvar {fp : fastpass_sock} (h : Reachable fp) : WinInvar fp := by
  induction h with
  | init fp hm hb ht =>
    refine ⟨?_, ?_, ?_⟩
    · intro p _
      rw [hb p, hm p]
      rfl
    · intro p _
      rw [hm _, hm _]
    · rw [ht]
      unfold maskPopcount
      symm
      rw [Finset.card_eq_zero]
      apply Finset.filter_eq_empty_iff.mpr
      intro x _
      rw [hm x]
      simp
  | add fp pd _ hfree ih => exact WinInvar_add ih pd hfree
  | pop fp s _ _ _ hocc ih => exact WinInvar_pop ih hocc

/-! ### Characterisation of `outwnd_at_or_before` (claim C5) -/

/-- Moving the reference point: if `n - s = d` then `s - (n - c) = c - d`, all in
`u64` arithmetic. -/
theorem sub64_shift (c : Nat) {n s d : Nat} (hd : sub64 n s = d) :
    sub64 s (sub64 n c) = sub64 c d := by
  subst hd
  simp only [sub64, M64_eq]
  omega

theorem mem_occupiedOffsets {fp : fastpass_sock} {x : Nat} :
    x ∈ occupiedOffsets fp ↔
      1 ≤ x ∧ x ≤ OUTWND_LEN ∧
        fp.bin_mask (outwnd_pos (sub64 fp.next_seqno x)) = true := by
  unfold occupiedOffsets
  rw [Finset.mem_filter, Finset.mem_Icc]
  tauto

/-- Index translation for the forward scan: bit `head + e` of the doubled mask
is the bit of the seqno at window offset `e + 1`. -/
theorem bit_corr {fp : fastpass_sock} (hm : MirrorInvar fp) {e : Nat}
    (he : e < OUTWND_LEN) :
    fp.bin_mask (outwnd_pos (sub64 fp.next_seqno 1) + e) =
      fp.bin_mask (outwnd_pos (sub64 fp.next_seqno (e + 1))) := by
  have h1 : outwnd_pos (sub64 fp.next_seqno 1) < OUTWND_LEN := outwnd_pos_lt _
  rw [mirror_mod hm (by simp only [OUTWND_LEN] at *; omega)]
  congr 1
  rw [outwnd_pos_sub64, outwnd_pos_sub64]
  have h2 : outwnd_pos fp.next_seqno < OUTWND_LEN := outwnd_pos_lt _
  simp only [OUTWND_LEN] at *
  omega

/-- Full behaviour of `outwnd_at_or_before` on a window seqno (offset
`d = next_seqno - s` with `1 ≤ d ≤ OUTWND_LEN`), phrased through the set `D` of
occupied offsets at or above `d` (i.e. occupied seqnos at or below `s`):
when `D` is empty the scan misses and returns `-1`; otherwise it returns
`D.min' - d`, the distance from `s` back to the closest occupied seqno. -/
theorem aob_char {fp : fastpass_sock} (hm : MirrorInvar fp) {s d : Nat}
    (hd : sub64 fp.next_seqno s = d) (h1 : 1 ≤ d) (h2 : d ≤ OUTWND_LEN) :
    ((occupiedOffsets fp).filter (fun x => d ≤ x) = ∅ →
      outwnd_at_or_before fp s = -1)
    ∧ ∀ hne : ((occupiedOffsets fp).filter (fun x => d ≤ x)).Nonempty,
        outwnd_at_or_before fp s =
          ((((occupiedOffsets fp).filter (fun x => d ≤ x)).min' hne : Nat) : Int) - (d : Int)
          ∧ d ≤ ((occupiedOffsets fp).filter (fun x => d ≤ x)).min' hne
          ∧ ((occupiedOffsets fp).filter (fun x => d ≤ x)).min' hne ≤ OUTWND_LEN := by
  have hL : OUTWND_LEN = 256 := rfl
  have hnb : time_before64 s (sub64 fp.next_seqno OUTWND_LEN) = false := by
    have e1 : sub64 s (sub64 fp.next_seqno OUTWND_LEN) = OUTWND_LEN - d := by
      rw [sub64_shift OUTWND_LEN hd]
      exact sub64_of_le (by simp only [OUTWND_LEN, M64_eq]; norm_num) h2
    simp only [time_before64, e1, decide_eq_false_iff_not]
    simp only [OUTWND_LEN] at *
    omega
  have e2 : outwnd_pos (sub64 s (sub64 fp.next_seqno 1)) = d - 1 := by
    rw [sub64_shift 1 hd, outwnd_pos_sub64, outwnd_pos_eq]
    simp only [OUTWND_LEN] at *
    omega
  have hheadlt : outwnd_pos (sub64 fp.next_seqno 1) < OUTWND_LEN := outwnd_pos_lt _
  have haob : outwnd_at_or_before fp s =
      (if find_next_bit fp.bin_mask (outwnd_pos (sub64 fp.next_seqno 1) + OUTWND_LEN)
          (outwnd_pos (sub64 fp.next_seqno 1) + (d - 1)) =
          outwnd_pos (sub64 fp.next_seqno 1) + OUTWND_LEN then -1
        else ((find_next_bit fp.bin_mask (outwnd_pos (sub64 fp.next_seqno 1) + OUTWND_LEN)
          (outwnd_pos (sub64 fp.next_seqno 1) + (d - 1)) : Int) -
          ((outwnd_pos (sub64 fp.next_seqno 1) + (d - 1) : Nat) : Int))) := by
    unfold outwnd_at_or_before
    rw [if_neg (by rw [hnb]; simp), e2]
  by_cases hfo : find_next_bit fp.bin_mask (outwnd_pos (sub64 fp.next_seqno 1) + OUTWND_LEN)
      (outwnd_pos (sub64 fp.next_seqno 1) + (d - 1)) =
      outwnd_pos (sub64 fp.next_seqno 1) + OUTWND_LEN
  · -- scan misses: no occupied offset at or above d
    have hall := find_next_bit_eq_size.mp hfo
    have hempty : (occupiedOffsets fp).filter (fun x => d ≤ x) = ∅ := by
      rw [Finset.filter_eq_empty_iff]
      intro x hx hdx
      obtain ⟨hx1, hx2, hx3⟩ := mem_occupiedOffsets.mp hx
      have he : x - 1 < OUTWND_LEN := by omega
      have := bit_corr hm he
      rw [show x - 1 + 1 = x by omega] at this
      have hfalse := hall (outwnd_pos (sub64 fp.next_seqno 1) + (x - 1))
        (by omega) (by simp only [OUTWND_LEN] at *; omega)
      rw [this, hx3] at hfalse
      exact absurd hfalse (by simp)
    refine ⟨fun _ => by rw [haob, if_pos hfo], fun hne => ?_⟩
    rw [hempty] at hne
    exact absurd hne (by simp)
  · -- scan hits: least set bit gives the least occupied offset at or above d
    obtain ⟨hmask, hge, hlt, hmin⟩ := find_next_bit_spec hfo
    set fo := find_next_bit fp.bin_mask (outwnd_pos (sub64 fp.next_seqno 1) + OUTWND_LEN)
      (outwnd_pos (sub64 fp.next_seqno 1) + (d - 1)) with hfodef
    set x0 := fo - outwnd_pos (sub64 fp.next_seqno 1) + 1 with hx0def
    have hx0a : d ≤ x0 := by omega
    have hx0b : x0 ≤ OUTWND_LEN := by omega
    have hx0bit : fp.bin_mask (outwnd_pos (sub64 fp.next_seqno 1) + (x0 - 1)) = true := by
      rw [show outwnd_pos (sub64 fp.next_seqno 1) + (x0 - 1) = fo by omega]
      exact hmask
    have hx0mem : x0 ∈ (occupiedOffsets fp).filter (fun x => d ≤ x) := by
      rw [Finset.mem_filter, mem_occupiedOffsets]
      refine ⟨⟨by omega, hx0b, ?_⟩, hx0a⟩
      have := bit_corr hm (e := x0 - 1) (by omega)
      rw [show x0 - 1 + 1 = x0 by omega] at this
      rw [← this]
      exact hx0bit
    have hlb : ∀ x ∈ (occupiedOffsets fp).filter (fun x => d ≤ x), x0 ≤ x := by
      intro x hx
      rw [Finset.mem_filter, mem_occupiedOffsets] at hx
      obtain ⟨⟨hxa, hxb, hxbit⟩, hxd⟩ := hx
      by_contra hcon
      have hxe : x - 1 < x0 - 1 := by omega
      have := bit_corr hm (e := x - 1) (by omega)
      rw [show x - 1 + 1 = x by omega] at this
      have hfalse := hmin (outwnd_pos (sub64 fp.next_seqno 1) + (x - 1))
        (by omega) (by omega)
      rw [this, hxbit] at hfalse
      exact absurd hfalse (by simp)
    have hne0 : ((occupiedOffsets fp).filter (fun x => d ≤ x)).Nonempty := ⟨x0, hx0mem⟩
    have hmin_eq : ((occupiedOffsets fp).filter (fun x => d ≤ x)).min' hne0 = x0 :=
      le_antisymm (Finset.min'_le _ _ hx0mem) (Finset.le_min' _ _ _ hlb)
    constructor
    · intro hempty
      rw [hempty] at hne0
      exact absurd hne0 (by simp)
    · intro hne
      have hsame : ((occupiedOffsets fp).filter (fun x => d ≤ x)).min' hne = x0 := hmin_eq
      rw [haob, if_neg hfo, hsame]
      refine ⟨?_, by omega, by omega⟩
      omega


/-! ### Characterisation of `outwnd_earliest_unacked_hint` (claim C6) -/

theorem sub32_of_le {a b : Nat} (ha : a < M32) (hb : b ≤ a) : sub32 a b = a - b := by
  simp only [sub32, M32_eq] at *
  omega

/-- If `n - s = d` then `s + k = n - (d - k)` in `u64` arithmetic (`k ≤ d`). -/
theorem add64_of_sub64 {n s d k : Nat} (hd : sub64 n s = d) (hk : k ≤ d) :
    add64 s k = sub64 n (d - k) := by
  subst hd
  simp only [sub64, add64, M64_eq] at *
  omega

/-- If `n - s = d` then the position of `s` is `position(n) + d` (mod window). -/
theorem outwnd_pos_of_sub64 {n s d : Nat} (hd : sub64 n s = d) :
    outwnd_pos s = (outwnd_pos n + d) % OUTWND_LEN := by
  subst hd
  rw [outwnd_pos_eq, outwnd_pos_eq]
  simp only [sub64, OUTWND_LEN, M64_eq]
  omega

/-- Index translation for the backward scan from `hint` (window offset `dh`):
bit `position(hint) + OUTWND_LEN - dh + x` is the bit of window offset `x`, for
`1 ≤ x ≤ dh`. -/
theorem bit_corr_back {fp : fastpass_sock} (hm : MirrorInvar fp) {hint dh x : Nat}
    (hd : sub64 fp.next_seqno hint = dh) (h1 : 1 ≤ dh) (h2 : dh ≤ OUTWND_LEN)
    (_hx1 : 1 ≤ x) (hx2 : x ≤ dh) :
    fp.bin_mask (outwnd_pos hint + OUTWND_LEN - dh + x) =
      fp.bin_mask (outwnd_pos (sub64 fp.next_seqno x)) := by
  have hp := outwnd_pos_of_sub64 hd
  have hxp : outwnd_pos (sub64 fp.next_seqno x) =
      (outwnd_pos fp.next_seqno + x) % OUTWND_LEN := outwnd_pos_sub64 _ _
  have hb : outwnd_pos fp.next_seqno < OUTWND_LEN := outwnd_pos_lt _
  have hhp : outwnd_pos hint < OUTWND_LEN := outwnd_pos_lt _
  rw [mirror_mod hm (by simp only [OUTWND_LEN] at *; omega)]
  congr 1
  rw [hp, hxp]
  simp only [OUTWND_LEN] at *
  omega

/-- Full behaviour of `outwnd_earliest_unacked_hint` on a window seqno `hint`
(offset `dh`), when some occupied slot lies at or after `hint`: it returns the
seqno of the largest occupied offset `≤ dh`, i.e. the earliest unacked seqno at
or after `hint`. -/
theorem hint_char {fp : fastpass_sock} (hm : MirrorInvar fp) {hint dh : Nat}
    (hd : sub64 fp.next_seqno hint = dh) (h1 : 1 ≤ dh) (h2 : dh ≤ OUTWND_LEN)
    (hne : ((occupiedOffsets fp).filter (fun x => x ≤ dh)).Nonempty) :
    outwnd_earliest_unacked_hint fp hint =
      sub64 fp.next_seqno (((occupiedOffsets fp).filter (fun x => x ≤ dh)).max' hne) := by
  have hhp : outwnd_pos hint < OUTWND_LEN := outwnd_pos_lt _
  set xmax := ((occupiedOffsets fp).filter (fun x => x ≤ dh)).max' hne with hxmaxdef
  have hxmem : xmax ∈ (occupiedOffsets fp).filter (fun x => x ≤ dh) :=
    Finset.max'_mem _ _
  have hxmax_le : ∀ x ∈ (occupiedOffsets fp).filter (fun x => x ≤ dh), x ≤ xmax :=
    fun x hx => Finset.le_max' _ _ hx
  rw [Finset.mem_filter, mem_occupiedOffsets] at hxmem
  obtain ⟨⟨hxa, hxb, hxbit⟩, hxd⟩ := hxmem
  have hjset : fp.bin_mask (outwnd_pos hint + OUTWND_LEN - dh + xmax) = true := by
    rw [bit_corr_back hm hd h1 h2 hxa hxd]
    exact hxbit
  have hfo_ne : find_last_bit fp.bin_mask (outwnd_pos hint + OUTWND_LEN + 1) ≠
      outwnd_pos hint + OUTWND_LEN + 1 := by
    intro hcon
    have hall := find_last_bit_eq_size.mp hcon
    have hfalse := hall (outwnd_pos hint + OUTWND_LEN - dh + xmax)
      (by simp only [OUTWND_LEN] at *; omega)
    rw [hjset] at hfalse
    exact absurd hfalse (by simp)
  obtain ⟨hmask, hlt, hmax⟩ := find_last_bit_spec hfo_ne
  set fo := find_last_bit fp.bin_mask (outwnd_pos hint + OUTWND_LEN + 1) with hfodef
  have hge : outwnd_pos hint + OUTWND_LEN - dh + xmax ≤ fo := by
    by_contra hcon
    have hfalse := hmax (outwnd_pos hint + OUTWND_LEN - dh + xmax)
      (by omega) (by simp only [OUTWND_LEN] at *; omega)
    rw [hjset] at hfalse
    exact absurd hfalse (by simp)
  set xs := fo - (outwnd_pos hint + OUTWND_LEN - dh) with hxsdef
  have hxs1 : 1 ≤ xs := by simp only [OUTWND_LEN] at *; omega
  have hxs2 : xs ≤ dh := by simp only [OUTWND_LEN] at *; omega
  have hfo_j : fo = outwnd_pos hint + OUTWND_LEN - dh + xs := by
    simp only [OUTWND_LEN] at *
    omega
  have hxsbit : fp.bin_mask (outwnd_pos (sub64 fp.next_seqno xs)) = true := by
    rw [← bit_corr_back hm hd h1 h2 hxs1 hxs2, ← hfo_j]
    exact hmask
  have hxsmem : xs ∈ (occupiedOffsets fp).filter (fun x => x ≤ dh) := by
    rw [Finset.mem_filter, mem_occupiedOffsets]
    exact ⟨⟨hxs1, by omega, hxsbit⟩, hxs2⟩
  have hxs_eq : xs = xmax := le_antisymm (hxmax_le _ hxsmem) (by omega)
  show add64 hint (sub32 (outwnd_pos hint + OUTWND_LEN) fo) = sub64 fp.next_seqno xmax
  have hsub32 : sub32 (outwnd_pos hint + OUTWND_LEN) fo =
      outwnd_pos hint + OUTWND_LEN - fo :=
    sub32_of_le (by simp only [OUTWND_LEN, M32_eq] at *; omega) (by omega)
  rw [hsub32, hfo_j, hxs_eq,
    show outwnd_pos hint + OUTWND_LEN - (outwnd_pos hint + OUTWND_LEN - dh + xmax) =
      dh - xmax by simp only [OUTWND_LEN] at *; omega]
  have hfin := add64_of_sub64 (k := dh - xmax) hd (by omega)
  rw [show dh - (dh - xmax) = xmax by omega] at hfin
  exact hfin



/-! ### Termination of the ACK run-length loop (claim C10) -/

/-- Number of left shifts by one nibble after which the 32-bit word `r` becomes
zero; at most 8. -/
def nibs (r : Nat) : Nat :=
  ((Finset.range 8).filter (fun j => r * 16 ^ j % M32 ≠ 0)).card

theorem nibs_le (r : Nat) : nibs r ≤ 8 := by
  calc nibs r ≤ (Finset.range 8).card := Finset.card_filter_le _ _
  _ = 8 := Finset.card_range _

theorem nibs_zero : nibs 0 = 0 := by
  unfold nibs
  simp

/-- Shifting the word one nibble left in `M32` arithmetic. -/
theorem shift_pow {r : Nat} (j : Nat) :
    r * 16 % M32 * 16 ^ j % M32 = r * 16 ^ (j + 1) % M32 := by
  have h := (Nat.mod_modEq (r * 16) M32).mul_right (16 ^ j)
  unfold Nat.ModEq at h
  rw [h]
  congr 1
  ring

theorem nibs_shift {r : Nat} (hr : r < M32) (h0 : r ≠ 0) :
    nibs (r * 16 % M32) < nibs r := by
  have h0A : 0 ∈ (Finset.range 8).filter (fun j => r * 16 ^ j % M32 ≠ 0) := by
    rw [Finset.mem_filter, Finset.mem_range]
    refine ⟨by omega, ?_⟩
    rw [pow_zero, Nat.mul_one, Nat.mod_eq_of_lt hr]
    exact h0
  have hzero7 : r * 16 % M32 * 16 ^ 7 % M32 = 0 := by
    rw [shift_pow 7, show (16 : Nat) ^ (7 + 1) = M32 by norm_num [M32_eq]]
    exact Nat.mul_mod_left r M32
  have hsub : ((Finset.range 8).filter
        (fun j => r * 16 % M32 * 16 ^ j % M32 ≠ 0)).image Nat.succ ⊆
      ((Finset.range 8).filter (fun j => r * 16 ^ j % M32 ≠ 0)).erase 0 := by
    intro y hy
    rw [Finset.mem_image] at hy
    obtain ⟨j, hj, rfl⟩ := hy
    rw [Finset.mem_filter, Finset.mem_range] at hj
    obtain ⟨hj8, hjnz⟩ := hj
    rw [shift_pow] at hjnz
    have hj7 : j < 7 := by
      by_contra hc
      have hj7e : j = 7 := by omega
      subst hj7e
      rw [← shift_pow] at hjnz
      exact hjnz hzero7
    rw [Finset.mem_erase, Finset.mem_filter, Finset.mem_range]
    exact ⟨Nat.succ_ne_zero j, by omega, hjnz⟩
  have hcard : nibs (r * 16 % M32) ≤ nibs r - 1 := by
    unfold nibs
    calc ((Finset.range 8).filter (fun j => r * 16 % M32 * 16 ^ j % M32 ≠ 0)).card
        = (((Finset.range 8).filter
            (fun j => r * 16 % M32 * 16 ^ j % M32 ≠ 0)).image Nat.succ).card :=
          (Finset.card_image_of_injective _ Nat.succ_injective).symm
      _ ≤ (((Finset.range 8).filter (fun j => r * 16 ^ j % M32 ≠ 0)).erase 0).card :=
          Finset.card_le_card hsub
      _ = ((Finset.range 8).filter (fun j => r * 16 ^ j % M32 ≠ 0)).card - 1 :=
          Finset.card_erase_of_mem h0A
  have hpos : 1 ≤ nibs r := by
    unfold nibs
    exact Finset.card_pos.mpr ⟨0, h0A⟩
  omega

/-- Fuel cost charged per goto target. -/
def modeCost : AckMode → Nat
  | .positive => 2
  | .unacked => 1

theorem ack_loop_positive_eq (fuel : Nat) (fp : fastpass_sock)
    (cur endS runlen : Nat) (acks : List Nat) :
    ack_loop (fuel + 1) .positive fp cur endS runlen acks =
      ack_loop fuel .unacked fp endS (sub64 endS (runlen / 2 ^ 28))
        (runlen * 2 ^ 4 % M32) acks := rfl

theorem ack_loop_unacked_eq (fuel : Nat) (fp : fastpass_sock)
    (cur endS runlen : Nat) (acks : List Nat) :
    ack_loop (fuel + 1) .unacked fp cur endS runlen acks =
      (if outwnd_at_or_before fp cur = -1 then some (fp, acks)
       else if time_after64 (sub64 cur (outwnd_at_or_before fp cur).toNat) endS then
         ack_loop fuel .unacked
           (do_ack_seqno fp (sub64 cur (outwnd_at_or_before fp cur).toNat))
           (sub64 cur (outwnd_at_or_before fp cur).toNat) endS runlen
           (acks ++ [sub64 cur (outwnd_at_or_before fp cur).toNat])
       else if runlen ≠ 0 then
         ack_loop fuel .positive fp (sub64 cur (outwnd_at_or_before fp cur).toNat)
           (sub64 endS (runlen / 2 ^ 28)) (runlen * 2 ^ 4 % M32) acks
       else some (fp, acks)) := rfl

/-- `outwnd_at_or_before` returns `-1` or a non-negative offset. -/
theorem aob_cases (fp : fastpass_sock) (t : Nat) :
    outwnd_at_or_before fp t = -1 ∨ 0 ≤ outwnd_at_or_before fp t := by
  unfold outwnd_at_or_before
  by_cases h1 : time_before64 t (sub64 fp.next_seqno OUTWND_LEN) = true
  · rw [if_pos h1]
    exact Or.inl rfl
  · rw [if_neg h1]
    simp only []
    by_cases h2 : find_next_bit fp.bin_mask (outwnd_pos (sub64 fp.next_seqno 1) + OUTWND_LEN)
        (outwnd_pos (sub64 fp.next_seqno 1) +
          outwnd_pos (sub64 t (sub64 fp.next_seqno 1))) =
        outwnd_pos (sub64 fp.next_seqno 1) + OUTWND_LEN
    · rw [if_pos h2]
      exact Or.inl rfl
    · rw [if_neg h2]
      obtain ⟨_, hge, _, _⟩ := find_next_bit_spec h2
      right
      omega

/-- The ACK run-length loop terminates (returns `some`) whenever the fuel covers
two steps per remaining nibble plus one step per occupied slot: each `positive`
step consumes a nibble of the 32-bit run-length word, and each acknowledging
`unacked` step pops an occupied slot. -/
theorem ack_loop_isSome :
    ∀ (fuel : Nat) (mode : AckMode) (fp : fastpass_sock) (cur endS runlen : Nat)
      (acks : List Nat), MirrorInvar fp → runlen < M32 →
      2 * nibs runlen + maskPopcount fp.bin_mask + modeCost mode ≤ fuel →
      (ack_loop fuel mode fp cur endS runlen acks).isSome = true := by
  intro fuel
  induction fuel with
  | zero =>
    intro mode fp cur endS runlen acks _ _ hb
    cases mode <;> simp only [modeCost] at hb <;> omega
  | succ fuel ih =>
    intro mode fp cur endS runlen acks hm hr hb
    cases mode with
    | positive =>
      simp only [modeCost] at hb
      rw [ack_loop_positive_eq]
      apply ih _ _ _ _ _ _ hm (Nat.mod_lt _ (by norm_num [M32_eq]))
      simp only [modeCost]
      by_cases h0 : runlen = 0
      · subst h0
        rw [show (0 : Nat) * 2 ^ 4 % M32 = 0 by norm_num, nibs_zero]
        rw [nibs_zero] at hb
        omega
      · have hdec := nibs_shift hr h0
        rw [show runlen * 2 ^ 4 = runlen * 16 by ring]
        omega
    | unacked =>
      simp only [modeCost] at hb
      rw [ack_loop_unacked_eq]
      by_cases h1 : outwnd_at_or_before fp cur = -1
      · rw [if_pos h1]
        rfl
      · rw [if_neg h1]
        have hg0 : 0 ≤ outwnd_at_or_before fp cur := by
          rcases aob_cases fp cur with hc | hc
          · exact absurd hc h1
          · exact hc
        have hunacked := aob_nonneg_unacked hm rfl hg0
        obtain ⟨hpopdec, hpop1⟩ := maskPopcount_pop hunacked
        by_cases h2 : time_after64 (sub64 cur (outwnd_at_or_before fp cur).toNat) endS = true
        · rw [if_pos h2]
          apply ih _ _ _ _ _ _ (MirrorInvar_pop hm _) hr
          simp only [modeCost, do_ack_seqno]
          omega
        · rw [if_neg h2]
          by_cases h3 : runlen ≠ 0
          · rw [if_pos h3]
            apply ih _ _ _ _ _ _ hm (Nat.mod_lt _ (by norm_num [M32_eq]))
            simp only [modeCost]
            have hdec := nibs_shift hr h3
            rw [show runlen * 2 ^ 4 = runlen * 16 by ring]
            omega
          · rw [if_neg h3]
            rfl



/-! ### Helper facts for the session-level claims -/

/-- `cancel_and_reset_retrans_timer` never touches the window bitmap. -/
theorem cancel_and_reset_bin_mask (fp : fastpass_sock) :
    (cancel_and_reset_retrans_timer fp).bin_mask = fp.bin_mask := by
  simp only [cancel_and_reset_retrans_timer]
  split
  · rfl
  · split <;> rfl

/-- `cancel_and_reset_retrans_timer` never touches the descriptor slots. -/
theorem cancel_and_reset_bins (fp : fastpass_sock) :
    (cancel_and_reset_retrans_timer fp).bins = fp.bins := by
  simp only [cancel_and_reset_retrans_timer]
  split
  · rfl
  · split <;> rfl

/-- `cancel_and_reset_retrans_timer` never touches `next_seqno`. -/
theorem cancel_and_reset_next_seqno (fp : fastpass_sock) :
    (cancel_and_reset_retrans_timer fp).next_seqno = fp.next_seqno := by
  simp only [cancel_and_reset_retrans_timer]
  split
  · rfl
  · split <;> rfl

/-- Popping a seqno leaves its own slot bit clear. -/
theorem pop_is_unacked_self (fp : fastpass_sock) (s : Nat) :
    outwnd_is_unacked (outwnd_pop fp s).1 s = false := by
  have hpos := outwnd_pos_lt s
  simp only [OUTWND_LEN] at hpos
  unfold outwnd_is_unacked outwnd_pop clear_bit
  simp only [OUTWND_LEN]
  rw [if_neg (by omega)]
  simp

/-- Arithmetic of the seqno reconstruction in `fpproto_handle_ack`: the result
is the unique value lying in the `2^16`-window directly below `next_seqno` that
is congruent to the carried 16 bits. -/
theorem reconstruct_ack_spec {n a : Nat} (_hn : n < M64) (ha : a < 2 ^ 16) :
    1 ≤ sub64 n (reconstruct_ack_seqno n a) ∧
      sub64 n (reconstruct_ack_seqno n a) ≤ 2 ^ 16 ∧
      reconstruct_ack_seqno n a % 2 ^ 16 = a ∧
      ∀ s, s < M64 → 1 ≤ sub64 n s → sub64 n s ≤ 2 ^ 16 → s % 2 ^ 16 = a →
        s = reconstruct_ack_seqno n a := by
  unfold reconstruct_ack_seqno
  simp only [sub64, add64, M64_eq, show (2 : Nat) ^ 16 = 65536 by norm_num] at *
  refine ⟨by omega, by omega, by omega, ?_⟩
  intro s hs h1 h2 h3
  omega

/-- The window test against the seqno reconstructed from an ACK: the code's
`time_before64 (cur, next - OUTWND_LEN)` is exactly "offset above OUTWND_LEN". -/
theorem ack_too_early_iff {n c : Nat} (_hc : c < M64)
    (h1 : 1 ≤ sub64 n c) (h2 : sub64 n c ≤ 2 ^ 16) :
    time_before64 c (sub64 n OUTWND_LEN) = true ↔ OUTWND_LEN < sub64 n c := by
  have he : sub64 c (sub64 n OUTWND_LEN) = sub64 OUTWND_LEN (sub64 n c) := by
    have hd : sub64 n c = sub64 n c := rfl
    exact sub64_shift OUTWND_LEN hd
  rw [time_before64_iff, he]
  simp only [sub64, OUTWND_LEN, M64_eq, show (2 : Nat) ^ 16 = 65536 by norm_num,
    show (2 : Nat) ^ 63 = 9223372036854775808 by norm_num] at *
  omega

/-! ### Concrete states used by witnesses and counterexamples -/

/-- A descriptor with seqno `s`, sent at time `3 * s`. -/
def pkt (s : Nat) : fpproto_pktdesc := ⟨s, 3 * s, false, 0⟩

/-- Concrete session: committed seqnos 100..115 outstanding, `next_seqno = 116`
(positions 141..156 of the mask set, with their mirror images 397..412). -/
def st115 : fastpass_sock where
  bin_mask := fun j => decide ((141 ≤ j ∧ j ≤ 156) ∨ (397 ≤ j ∧ j ≤ 412))
  bins := fun p => if 141 ≤ p ∧ p ≤ 156 then some (pkt (256 - p)) else none
  next_seqno := 116
  tx_num_unacked := 16
  earliest_unacked := 100
  send_timeout_us := 1000
  last_reset_time := 0
  in_sync := true
  rst_win_ns := 0
  retrans_timer := TimerState.inactive
  stat_redundant_reset := 0
  stat_reset_out_of_window := 0
  stat_outdated_reset := 0
  stat_too_early_ack := 0
  stat_fall_off_outwnd := 0

/-- Concrete session: a single outstanding packet (seqno 499, position 13),
`next_seqno = 500`, retransmission timer armed at absolute time 777. -/
def stTimer : fastpass_sock where
  bin_mask := fun j => decide (j = 13 ∨ j = 269)
  bins := fun p => if p = 13 then some (pkt 499) else none
  next_seqno := 500
  tx_num_unacked := 1
  earliest_unacked := 499
  send_timeout_us := 1000
  last_reset_time := 0
  in_sync := true
  rst_win_ns := 0
  retrans_timer := TimerState.armed 777
  stat_redundant_reset := 0
  stat_reset_out_of_window := 0
  stat_outdated_reset := 0
  stat_too_early_ack := 0
  stat_fall_off_outwnd := 0

/-- Concrete session: the slot at the window edge (`next_seqno - 256 = 244`,
position 12) is occupied, `next_seqno = 500`. -/
def stEdge : fastpass_sock where
  bin_mask := fun j => decide (j = 12 ∨ j = 268)
  bins := fun p => if p = 12 then some (pkt 244) else none
  next_seqno := 500
  tx_num_unacked := 1
  earliest_unacked := 244
  send_timeout_us := 1000
  last_reset_time := 0
  in_sync := true
  rst_win_ns := 0
  retrans_timer := TimerState.inactive
  stat_redundant_reset := 0
  stat_reset_out_of_window := 0
  stat_outdated_reset := 0
  stat_too_early_ack := 0
  stat_fall_off_outwnd := 0

/-- Concrete session with an empty window, `last_reset_time = 5`; used for the
reset-handshake witnesses. -/
def stReset : fastpass_sock where
  bin_mask := fun _ => false
  bins := fun _ => none
  next_seqno := 1000
  tx_num_unacked := 0
  earliest_unacked := 0
  send_timeout_us := 1000
  last_reset_time := 5
  in_sync := true
  rst_win_ns := 1000000000
  retrans_timer := TimerState.inactive
  stat_redundant_reset := 0
  stat_reset_out_of_window := 0
  stat_outdated_reset := 0
  stat_too_early_ack := 0
  stat_fall_off_outwnd := 0

/-- A freshly initialised empty session with `next_seqno = 1000`. -/
def stInit : fastpass_sock where
  bin_mask := fun _ => false
  bins := fun _ => none
  next_seqno := 1000
  tx_num_unacked := 0
  earliest_unacked := 0
  send_timeout_us := 1000
  last_reset_time := 0
  in_sync := false
  rst_win_ns := 1000000000
  retrans_timer := TimerState.inactive
  stat_redundant_reset := 0
  stat_reset_out_of_window := 0
  stat_outdated_reset := 0
  stat_too_early_ack := 0
  stat_fall_off_outwnd := 0

/-- `stInit` after committing one packet: one occupied slot at seqno 1000. -/
def stOne : fastpass_sock := outwnd_add stInit (pkt 1000)

theorem stOne_reachable : Reachable stOne :=
  Reachable.add stInit (pkt 1000)
    (Reachable.init stInit (fun _ => rfl) (fun _ => rfl) rfl)
    (by decide)



/-- `Option.map` preserves `isSome`. -/
theorem isSome_map_opt {α β : Type} (f : α → β) (o : Option α) :
    (o.map f).isSome = o.isSome := by
  cases o <;> rfl

theorem st115_invar : WinInvar st115 := by
  unfold WinInvar
  refine ⟨by decide, by decide, by decide⟩

theorem stOne_invar : WinInvar stOne := Reachable_WinInvar stOne_reachable

/-! ### The claims -/

/-- C1 (counterexample): reading the run-length field with a *negative* run
first — runlen `0x03480000`, whose nibbles after the initially skipped one are
3, 4, 8 — does *not* deliver `handle_ack` for `{115, 111, 110, 109, 108}` on the
window holding 100..115: it acks the twelve seqnos
`{115, 114, 113, 112, 107..100}` instead, because the first nibble processed
after the initial left shift is an acked (positive) run length, not a negative
one. -/
theorem fastpass_C1_counterexample :
    (fpproto_handle_ack st115 115 0x03480000).map Prod.snd =
      some [115, 114, 113, 112, 107, 106, 105, 104, 103, 102, 101, 100] ∧
    (fpproto_handle_ack st115 115 0x03480000).map Prod.snd ≠
      some [115, 111, 110, 109, 108] ∧
    (((fpproto_handle_ack st115 115 0x03480000).map Prod.snd).getD []).toFinset ≠
      ({115, 111, 110, 109, 108} : Finset Nat) := by
  refine ⟨by decide, by decide, by decide⟩

/-- C1 (amended): with seqnos 100..115 outstanding (`next_seqno = 116`),
processing an ACK carrying seqno 115 whose run-length word encodes, MSB-first
after the initially skipped nibble, a positive run of 0, then a negative run of
3 (114..112), then a positive run of 4 (111..108), then a negative run of 8
(107..100) — i.e. `0x00348000` — delivers `handle_ack` for exactly the seqnos
`[115, 111, 110, 109, 108]`; the first nibble processed after the initial left
shift by 4 is a positive-run length, whose occupied seqnos are acked. -/
theorem fastpass_C1 :
    (fpproto_handle_ack st115 115 0x00348000).map Prod.snd =
      some [115, 111, 110, 109, 108] := by
  decide

/-- C2 (code bug): with the window non-empty and the retransmission timer armed
(pending, callback not running), `hrtimer_try_to_cancel` returns 1, so
`cancel_and_reset_retrans_timer` takes its early return: the timer is left
cancelled (unarmed) and is *not* re-armed, and `earliest_unacked` is not
updated — contradicting the code's own "could not cancel timer, tasklet will
reset timer" message, which describes only the callback-running case. -/
theorem fastpass_C2_timer_bug :
    outwnd_empty stTimer = false ∧
    stTimer.retrans_timer = TimerState.armed 777 ∧
    cancel_and_reset_retrans_timer stTimer =
      { stTimer with retrans_timer := TimerState.inactive } := by
  refine ⟨by decide, rfl, rfl⟩

/-- C3: for any session state and 16-bit `ack_seq`, the value
`next_seqno - 2^16 + ((ack_seq - (next_seqno - 2^16)) mod 2^16)` computed by
`fpproto_handle_ack` is the unique seqno strictly below `next_seqno` (within
`2^16`) congruent to `ack_seq` modulo `2^16`; and when that seqno is older than
`next_seqno - 256`, the function merely increments the too-early-ACK counter
and returns, leaving everything else unchanged. -/
theorem fastpass_C3 (fp : fastpass_sock) (ack_seq : Nat)
    (hn : fp.next_seqno < M64) (ha : ack_seq < 2 ^ 16) :
    (1 ≤ sub64 fp.next_seqno (reconstruct_ack_seqno fp.next_seqno ack_seq) ∧
     sub64 fp.next_seqno (reconstruct_ack_seqno fp.next_seqno ack_seq) ≤ 2 ^ 16 ∧
     reconstruct_ack_seqno fp.next_seqno ack_seq % 2 ^ 16 = ack_seq ∧
     ∀ s, s < M64 → 1 ≤ sub64 fp.next_seqno s → sub64 fp.next_seqno s ≤ 2 ^ 16 →
       s % 2 ^ 16 = ack_seq → s = reconstruct_ack_seqno fp.next_seqno ack_seq) ∧
    ∀ ack_runlen,
      OUTWND_LEN < sub64 fp.next_seqno (reconstruct_ack_seqno fp.next_seqno ack_seq) →
      fpproto_handle_ack fp ack_seq ack_runlen =
        some ({ fp with stat_too_early_ack := fp.stat_too_early_ack + 1 }, []) := by
  obtain ⟨r1, r2, r3, r4⟩ := reconstruct_ack_spec hn ha
  refine ⟨⟨r1, r2, r3, r4⟩, ?_⟩
  intro ack_runlen hold
  unfold fpproto_handle_ack
  simp only []
  have hcM : reconstruct_ack_seqno fp.next_seqno ack_seq < M64 := add64_lt _ _
  rw [if_pos ((ack_too_early_iff hcM r1 r2).mpr hold)]

/-- C3 witness: with `next_seqno = 1000` and `ack_seq = 0` the reconstructed
seqno is 0, which is older than `next_seqno - 256`; only the counter moves. -/
theorem fastpass_C3_witness :
    fpproto_handle_ack stReset 0 0 =
      some ({ stReset with stat_too_early_ack := stReset.stat_too_early_ack + 1 }, []) :=
  (fastpass_C3 stReset 0 (by decide) (by decide)).2 0 (by decide)

/-- C4: `outwnd_add` (under its precondition that the slot being overwritten is
free), `outwnd_pop` (of an occupied seqno) and `outwnd_reset` all preserve the
window invariants: occupancy matches the lower mask half, the upper half
mirrors the lower, and `tx_num_unacked` is the popcount of the lower half. -/
theorem fastpass_C4 (fp : fastpass_sock) (h : WinInvar fp) :
    (∀ pd, outwnd_is_unacked fp (sub64 fp.next_seqno OUTWND_LEN) = false →
      WinInvar (outwnd_add fp pd)) ∧
    (∀ s, outwnd_is_unacked fp s = true → WinInvar (outwnd_pop fp s).1) ∧
    WinInvar (outwnd_reset fp) :=
  ⟨fun pd hfree => WinInvar_add h pd hfree,
   fun _ hs => WinInvar_pop h hs,
   WinInvar_reset h⟩

/-- C4 witness: the invariants hold for the concrete window `st115` and are kept
by an add, a pop and a reset. -/
theorem fastpass_C4_witness :
    WinInvar (outwnd_add st115 (pkt 116)) ∧ WinInvar (outwnd_pop st115 110).1 ∧
      WinInvar (outwnd_reset st115) :=
  ⟨(fastpass_C4 st115 st115_invar).1 (pkt 116) (by decide),
   (fastpass_C4 st115 st115_invar).2.1 110 (by decide),
   (fastpass_C4 st115 st115_invar).2.2⟩

/-- C5: on a window state satisfying the invariants and a seqno `s` with
`next_seqno - 256 ≤ s < next_seqno` (offset `1 ≤ next_seqno - s ≤ 256`),
`outwnd_at_or_before s` returns `-1` exactly when no occupied slot exists in
`[next_seqno - 256, s]`, and otherwise returns `s - sp` where `sp` is the
highest occupied seqno `≤ s` (the seqno of the least occupied offset `≥`
the offset of `s`). -/
theorem fastpass_C5 (fp : fastpass_sock) (s : Nat) (hinv : WinInvar fp)
    (h1 : 1 ≤ sub64 fp.next_seqno s) (h2 : sub64 fp.next_seqno s ≤ OUTWND_LEN) :
    (outwnd_at_or_before fp s = -1 ↔
      (occupiedOffsets fp).filter (fun x => sub64 fp.next_seqno s ≤ x) = ∅) ∧
    ∀ hne : ((occupiedOffsets fp).filter (fun x => sub64 fp.next_seqno s ≤ x)).Nonempty,
      outwnd_at_or_before fp s =
        ((sub64 s (sub64 fp.next_seqno
          (((occupiedOffsets fp).filter
            (fun x => sub64 fp.next_seqno s ≤ x)).min' hne)) : Nat) : Int) := by
  obtain ⟨hemp, hsome⟩ := aob_char hinv.2.1 rfl h1 h2
  constructor
  · constructor
    · intro hm1
      by_contra hne
      rw [← ne_eq, ← Finset.nonempty_iff_ne_empty] at hne
      obtain ⟨heq, hge, hle⟩ := hsome hne
      rw [hm1] at heq
      omega
    · intro he
      exact hemp he
  · intro hne
    obtain ⟨heq, hge, hle⟩ := hsome hne
    rw [heq, sub64_shift _ rfl,
      sub64_of_le (by simp only [OUTWND_LEN, M64_eq] at *; omega) hge]
    omega

/-- C5 witness: in `st115` (occupied 100..115), the closest occupied seqno at or
before 110 is 110 itself, so the scan returns offset 0 `= 110 - 110`. -/
theorem fastpass_C5_witness :
    outwnd_at_or_before st115 110 =
      ((sub64 110 (sub64 st115.next_seqno
        (((occupiedOffsets st115).filter
          (fun x => sub64 st115.next_seqno 110 ≤ x)).min' ⟨6, by decide⟩)) : Nat) : Int) :=
  (fastpass_C5 st115 110 st115_invar (by decide) (by decide)).2 ⟨6, by decide⟩



/-- C6: for every window state satisfying the invariants and a hint inside the
window with at least one occupied slot at or after it,
`outwnd_earliest_unacked_hint` returns the smallest occupied seqno `≥` the hint
(the seqno of the largest occupied offset `≤` the hint's offset); and on every
non-empty window state reachable by adds and pops within window bounds,
`outwnd_earliest_unacked` returns the minimum occupied seqno. -/
theorem fastpass_C6 :
    (∀ (fp : fastpass_sock) (hint : Nat), WinInvar fp →
      1 ≤ sub64 fp.next_seqno hint → sub64 fp.next_seqno hint ≤ OUTWND_LEN →
      ∀ hne : ((occupiedOffsets fp).filter
          (fun x => x ≤ sub64 fp.next_seqno hint)).Nonempty,
        outwnd_earliest_unacked_hint fp hint =
          sub64 fp.next_seqno
            (((occupiedOffsets fp).filter
              (fun x => x ≤ sub64 fp.next_seqno hint)).max' hne)) ∧
    (∀ fp : fastpass_sock, Reachable fp → fp.tx_num_unacked ≠ 0 →
      OUTWND_LEN ≤ fp.next_seqno → fp.next_seqno < M64 →
      ∀ hne : (occupiedSeqnos fp).Nonempty,
        outwnd_earliest_unacked fp = (occupiedSeqnos fp).min' hne) := by
  constructor
  · intro fp hint hinv h1 h2 hne
    exact hint_char hinv.2.1 rfl h1 h2 hne
  · intro fp hreach _htx hn256 hM hne
    have hinv := Reachable_WinInvar hreach
    have hocc_ne : (occupiedOffsets fp).Nonempty := by
      obtain ⟨y, hy⟩ := hne
      rw [occupiedSeqnos, Finset.mem_image] at hy
      obtain ⟨x, hx, _⟩ := hy
      exact ⟨x, hx⟩
    have hfilter : (occupiedOffsets fp).filter (fun x => x ≤ OUTWND_LEN) =
        occupiedOffsets fp :=
      Finset.filter_true_of_mem (fun x hx => (mem_occupiedOffsets.mp hx).2.1)
    have hd : sub64 fp.next_seqno (sub64 fp.next_seqno OUTWND_LEN) = OUTWND_LEN := by
      rw [sub64_sub64_self]
      simp only [OUTWND_LEN, M64_eq]
    have hne2 : ((occupiedOffsets fp).filter (fun x => x ≤ OUTWND_LEN)).Nonempty := by
      rw [hfilter]
      exact hocc_ne
    have hchar := hint_char hinv.2.1 hd (by decide) (le_refl _) hne2
    unfold outwnd_earliest_unacked
    rw [hchar]
    have hxm_mem : ((occupiedOffsets fp).filter (fun x => x ≤ OUTWND_LEN)).max' hne2 ∈
        occupiedOffsets fp := by
      have hmm := Finset.max'_mem _ hne2
      rw [Finset.mem_filter] at hmm
      exact hmm.1
    obtain ⟨hxm1, hxm256, _⟩ := mem_occupiedOffsets.mp hxm_mem
    rw [sub64_of_le hM (by simp only [OUTWND_LEN] at *; omega)]
    symm
    apply le_antisymm
    · apply Finset.min'_le
      rw [occupiedSeqnos, Finset.mem_image]
      exact ⟨_, hxm_mem, rfl⟩
    · apply Finset.le_min'
      intro y hy
      rw [occupiedSeqnos, Finset.mem_image] at hy
      obtain ⟨x, hx, rfl⟩ := hy
      have hxle : x ≤ ((occupiedOffsets fp).filter (fun x => x ≤ OUTWND_LEN)).max' hne2 :=
        Finset.le_max' _ x (by
          rw [Finset.mem_filter]
          exact ⟨hx, (mem_occupiedOffsets.mp hx).2.1⟩)
      have hx256 := (mem_occupiedOffsets.mp hx).2.1
      simp only [OUTWND_LEN] at *
      omega

/-- C6 witness: the session `stOne` (one packet committed, seqno 1000,
`next_seqno = 1001`) is reachable; the hint scan from seqno 1000 and the
earliest-unacked scan both return 1000, the minimum (only) occupied seqno. -/
theorem fastpass_C6_witness :
    outwnd_earliest_unacked_hint stOne 1000 =
      sub64 stOne.next_seqno
        (((occupiedOffsets stOne).filter
          (fun x => x ≤ sub64 stOne.next_seqno 1000)).max' ⟨1, by decide⟩) ∧
    outwnd_earliest_unacked stOne = (occupiedSeqnos stOne).min' ⟨1000, by decide⟩ :=
  ⟨fastpass_C6.1 stOne 1000 stOne_invar (by decide) (by decide) ⟨1, by decide⟩,
   fastpass_C6.2 stOne stOne_reachable (by decide) (by decide) (by decide)
     ⟨1000, by decide⟩⟩

/-- C7: processing a RESET whose reconstructed timestamp equals
`last_reset_time` is idempotent: with `in_sync` already true only the
redundant-reset counter moves; with `in_sync` false only `in_sync` flips to
true.  No callback fires and no other state changes. -/
theorem fastpass_C7 (time_hash_fn : Nat → Nat) (fp : fastpass_sock) (now p : Nat)
    (h : reconstruct_reset_tstamp now p = fp.last_reset_time) :
    (fp.in_sync = true →
      fpproto_handle_reset time_hash_fn fp now p =
        ({ fp with stat_redundant_reset := fp.stat_redundant_reset + 1 }, false)) ∧
    (fp.in_sync = false →
      fpproto_handle_reset time_hash_fn fp now p =
        ({ fp with in_sync := true }, false)) := by
  constructor
  · intro hs
    unfold fpproto_handle_reset
    simp only []
    rw [if_pos h, if_pos hs]
  · intro hs
    unfold fpproto_handle_reset
    simp only []
    rw [if_pos h, if_neg (by rw [hs]; simp)]

/-- C7 witness: a second identical RESET (timestamp 5, `in_sync` true) only
increments the redundant-reset counter. -/
theorem fastpass_C7_witness :
    fpproto_handle_reset (fun _ => 0) stReset (2 ^ 55) 5 =
      ({ stReset with stat_redundant_reset := stReset.stat_redundant_reset + 1 },
        false) :=
  (fastpass_C7 (fun _ => 0) stReset (2 ^ 55) 5 (by decide)).1 rfl

/-- C8: an inbound RESET whose reconstructed timestamp differs from
`last_reset_time` and falls outside `[now - rst_win_ns/2, now + rst_win_ns/2)`
only increments the out-of-window counter: window, `next_seqno`,
`last_reset_time` and `in_sync` keep their values and no callback fires. -/
theorem fastpass_C8 (time_hash_fn : Nat → Nat) (fp : fastpass_sock) (now p : Nat)
    (h1 : reconstruct_reset_tstamp now p ≠ fp.last_reset_time)
    (h2 : tstamp_in_window (reconstruct_reset_tstamp now p) now fp.rst_win_ns = false) :
    fpproto_handle_reset time_hash_fn fp now p =
      ({ fp with stat_reset_out_of_window := fp.stat_reset_out_of_window + 1 },
        false) := by
  unfold fpproto_handle_reset
  simp only []
  rw [if_neg h1, if_pos h2]

/-- C8 witness: the spec scenario — `rst_win_ns` = 1 s, `now` = 10 s, RESET for
t = 2 s — is rejected with only `reset_out_of_window` incremented. -/
theorem fastpass_C8_witness :
    fpproto_handle_reset (fun _ => 0) stReset (10 ^ 10) (2 * 10 ^ 9) =
      ({ stReset with stat_reset_out_of_window := stReset.stat_reset_out_of_window + 1 },
        false) :=
  fastpass_C8 (fun _ => 0) stReset (10 ^ 10) (2 * 10 ^ 9) (by decide) (by decide)

/-- C9: `fpproto_prepare_to_send` pops the window-edge descriptor when that slot
is occupied — delivering it as a negative acknowledgement, incrementing the
fall-off counter and running cancel-and-reset — and does nothing when the slot
is free; in either case the slot at `next_seqno - OUTWND_LEN` is free
afterwards, so a following commit's precondition holds. -/
theorem fastpass_C9 (fp : fastpass_sock) :
    (outwnd_is_unacked fp (sub64 fp.next_seqno OUTWND_LEN) = true →
      fpproto_prepare_to_send fp =
        (cancel_and_reset_retrans_timer
          (do_neg_ack_seqno
            { fp with stat_fall_off_outwnd := fp.stat_fall_off_outwnd + 1 }
            (sub64 fp.next_seqno OUTWND_LEN)),
         [sub64 fp.next_seqno OUTWND_LEN])) ∧
    (outwnd_is_unacked fp (sub64 fp.next_seqno OUTWND_LEN) = false →
      fpproto_prepare_to_send fp = (fp, [])) ∧
    outwnd_is_unacked (fpproto_prepare_to_send fp).1
      (sub64 fp.next_seqno OUTWND_LEN) = false := by
  refine ⟨?_, ?_, ?_⟩
  · intro h
    unfold fpproto_prepare_to_send
    simp only []
    rw [if_pos h]
  · intro h
    unfold fpproto_prepare_to_send
    simp only []
    rw [if_neg (by rw [h]; simp)]
  · by_cases hb : outwnd_is_unacked fp (sub64 fp.next_seqno OUTWND_LEN) = true
    · unfold fpproto_prepare_to_send
      simp only []
      rw [if_pos hb]
      have hpop := pop_is_unacked_self
        { fp with stat_fall_off_outwnd := fp.stat_fall_off_outwnd + 1 }
        (sub64 fp.next_seqno OUTWND_LEN)
      unfold outwnd_is_unacked at hpop ⊢
      rw [cancel_and_reset_bin_mask]
      exact hpop
    · have hf : outwnd_is_unacked fp (sub64 fp.next_seqno OUTWND_LEN) = false := by
        revert hb
        cases outwnd_is_unacked fp (sub64 fp.next_seqno OUTWND_LEN)
        · intro _; rfl
        · intro hb; exact absurd rfl hb
      unfold fpproto_prepare_to_send
      simp only []
      rw [if_neg (by rw [hf]; simp)]
      exact hf

/-- C9 witness: in `stEdge`, where the slot at the window edge (seqno 244) is
occupied, the edge packet is NACKed, counted, cancel-and-reset runs, and the
slot ends up free. -/
theorem fastpass_C9_witness :
    fpproto_prepare_to_send stEdge =
      (cancel_and_reset_retrans_timer
        (do_neg_ack_seqno
          { stEdge with stat_fall_off_outwnd := stEdge.stat_fall_off_outwnd + 1 }
          (sub64 stEdge.next_seqno OUTWND_LEN)),
       [sub64 stEdge.next_seqno OUTWND_LEN]) :=
  (fastpass_C9 stEdge).1 (by decide)

/-- Fuel bound: `ACK_LOOP_FUEL` always covers the run-length loop's measure. -/
theorem ack_bound_le (r : Nat) (m : Nat → Bool) :
    2 * nibs r + maskPopcount m + modeCost .positive ≤ ACK_LOOP_FUEL := by
  have h1 := nibs_le r
  have h2 := maskPopcount_le m
  simp only [modeCost, ACK_LOOP_FUEL, OUTWND_LEN] at *
  omega

/-- C10: `fpproto_handle_ack` terminates on every window state satisfying the
invariants and every `(ack_seq, ack_runlen)`: the run loop consumes one nibble
of the finite 32-bit run-length word per positive step (at most eight) and pops
one occupied slot per acknowledging step, so the fuelled loop always returns
`some` within `ACK_LOOP_FUEL` steps. -/
theorem fastpass_C10 (fp : fastpass_sock) (hinv : WinInvar fp)
    (ack_seq ack_runlen : Nat) :
    (fpproto_handle_ack fp ack_seq ack_runlen).isSome = true := by
  unfold fpproto_handle_ack
  simp only []
  by_cases h1 : time_before64 (reconstruct_ack_seqno fp.next_seqno ack_seq)
      (sub64 fp.next_seqno OUTWND_LEN) = true
  · rw [if_pos h1]
    rfl
  · rw [if_neg h1]
    rw [isSome_map_opt]
    apply ack_loop_isSome
    · by_cases hu : outwnd_is_unacked fp (reconstruct_ack_seqno fp.next_seqno ack_seq) = true
      · rw [if_pos hu]
        exact MirrorInvar_pop hinv.2.1 _
      · rw [if_neg hu]
        exact hinv.2.1
    · exact Nat.mod_lt _ (by norm_num [M32_eq])
    · exact ack_bound_le _ _

/-- C10 witness: the loop returns `some` on the concrete window `st115`. -/
theorem fastpass_C10_witness : (fpproto_handle_ack st115 0 0).isSome = true :=
  fastpass_C10 st115 st115_invar 0 0


end Fastpass
